import Mathlib

/-!
Verification of the S7 south plugin decode engine
(`python/fledge/plugins/south/s7_python/s7_python.py`).

The development shallowly embeds the pure core of the plugin: the span
coalescer `union_range`, the type catalog (`get_type_size_`,
`get_struct_size`, `get_type_size`, `convert_key`, `get_array_size`), the
byte decoders (`get_uint`, `get_lword`, ... and the dispatcher
`get_value_`), the struct decoder `get_struct_values`, and the value-tree
flattener `walk`.  Byte buffers are lists of bytes (`Fin 256`), Python
exceptions are modelled by `Option` (`none` means the call raised), and
Python `None` is the explicit value `PyVal.vnone`.  Offset keys and type
names are modelled in the decimal/ASCII form the schema uses.
-/

namespace S7

/-! ### String utilities mirroring the Python primitives used by the plugin -/

/-- Whitespace test matching what `str.strip()` removes on ASCII input. -/
def isWs (c : Char) : Bool :=
  c = ' ' ∨ c = '\t' ∨ c = '\n' ∨ c = '\r'

/-- Model of Python `str.strip()` on ASCII strings: drop whitespace at both ends. -/
def trimStr (s : String) : String :=
  ⟨((s.data.dropWhile isWs).reverse.dropWhile isWs).reverse⟩

/-- ASCII lower-casing of one character, as `str.lower()` does on ASCII. -/
def lowerChar (c : Char) : Char :=
  if 65 ≤ c.toNat ∧ c.toNat ≤ 90 then Char.ofNat (c.toNat + 32) else c

/-- Model of Python `str.lower()` on ASCII strings. -/
def lowerStr (s : String) : String :=
  ⟨s.data.map lowerChar⟩

/-- The normalisation `item['type'].strip().lower()` applied throughout the plugin. -/
def normType (s : String) : String :=
  lowerStr (trimStr s)

/-- Model of Python `str.split(c)` on a character list. -/
def splitOnCharList (c : Char) : List Char → List (List Char)
  | [] => [[]]
  | d :: rest =>
    match splitOnCharList c rest with
    | [] => [[]]
    | g :: gs => if d = c then [] :: g :: gs else (d :: g) :: gs

/-- Model of Python `str.split(c)` returning strings. -/
def splitOnStr (c : Char) (s : String) : List String :=
  (splitOnCharList c s.data).map (fun l => ⟨l⟩)

/-- Model of Python `s[:-1]`: drop the final character. -/
def dropLastStr (s : String) : String :=
  ⟨s.data.dropLast⟩

/-- Whether the final character of the string is `c` (Python `s[-1] == c`). -/
def lastCharIs (s : String) (c : Char) : Bool :=
  s.data.getLast? = some c

/-- Python string comparison: lexicographic by character code point. -/
def strLtList : List Char → List Char → Bool
  | [], [] => false
  | [], _ :: _ => true
  | _ :: _, [] => false
  | c :: cs, d :: ds =>
    if c.toNat < d.toNat then true
    else if d.toNat < c.toNat then false
    else strLtList cs ds

/-- Python `s < t` on strings. -/
def strLtB (a b : String) : Bool :=
  strLtList a.data b.data

/-- Python `min` over a list of strings (`none` models the `ValueError` on an
empty sequence). -/
def pyMin (l : List String) : Option String :=
  match l with
  | [] => none
  | x :: xs => some (xs.foldl (fun acc s => if strLtB s acc then s else acc) x)

/-- Python `max` over a list of strings (`none` models the `ValueError` on an
empty sequence). -/
def pyMax (l : List String) : Option String :=
  match l with
  | [] => none
  | x :: xs => some (xs.foldl (fun acc s => if strLtB acc s then s else acc) x)

/-- Decimal digit test (character codes 48-57), as Python `int`/`float`
parsing accepts. -/
def isDigitChar (c : Char) : Bool :=
  48 ≤ c.toNat && c.toNat ≤ 57

/-- Numeric value of a digit string (most significant digit first). -/
def digitsToNat (s : List Char) : Nat :=
  s.foldl (fun a c => 10 * a + (c.toNat - 48)) 0

/-- Model of Python `int(s)` on unsigned decimal literals; `none` models the
`ValueError` raised on anything else. -/
def parseIntStr (s : String) : Option Nat :=
  if s.data ≠ [] ∧ s.data.all isDigitChar then some (digitsToNat s.data) else none

/-- Leading run of decimal digits of a character list. -/
def leadingDigits (s : List Char) : List Char :=
  s.takeWhile isDigitChar

/-- Model of Python `range(start, stop, step)` for a positive step. -/
def pyRange (start stop step : Int) : List Int :=
  if 0 < step then
    (List.range (((stop - start + step - 1) / step).toNat)).map
      (fun k => start + k * step)
  else []

/-! ### Python values

Mutually inductive model of the Python values the plugin builds: `vnone` is
Python `None`, `vraw tag bs` abstractly stands for a decoded value (an IEEE
float or a formatted time string) that is a pure function of the consumed
bytes `bs`, rendered by the external snap7 library. -/

mutual

inductive PyVal where
  | vnone
  | vbool (b : Bool)
  | vint (n : Int)
  | vstr (s : String)
  | vbytes (bs : List Nat)
  | vraw (tag : String) (bs : List Nat)
  | vlist (l : PyList)
  | vdict (d : PyDict)

inductive PyList where
  | nil
  | cons (v : PyVal) (t : PyList)

inductive PyDict where
  | dnil
  | dcons (k : String) (v : PyVal) (t : PyDict)

end

/-- Whether a Python dict has an entry under the given key. -/
def PyDict.hasKey : PyDict → String → Bool
  | .dnil, _ => false
  | .dcons k _ t, key => k == key || t.hasKey key

/-- The (key, value) entries of a Python dict, in insertion order. -/
def PyDict.entries : PyDict → List (String × PyVal)
  | .dnil => []
  | .dcons k v t => (k, v) :: t.entries

/-- Python `o[key] = v` on a dict: overwrite in place, else append. -/
def dictSet : PyDict → String → PyVal → PyDict
  | .dnil, key, v => .dcons key v .dnil
  | .dcons k w t, key, v =>
    if k = key then .dcons k v t else .dcons k w (dictSet t key v)

/-! ### Byte buffers -/

/-- One byte of a fetched buffer. -/
abbrev Byte := Fin 256

/-- An immutable byte buffer (`bytearray` in the source). -/
abbrev Bytes := List Byte

/-- Python slice `b[i:j]` (for non-negative indices): truncating, never raising. -/
def pySlice (b : Bytes) (i j : Nat) : Bytes :=
  (b.take j).drop i

/-- Big-endian unsigned value of a byte list. -/
def beVal (bs : Bytes) : Nat :=
  bs.foldl (fun a x => 256 * a + x.val) 0

/-- Two's-complement reading of an unsigned `w`-byte big-endian value. -/
def toSigned (v : Nat) (w : Nat) : Int :=
  if v < 2 ^ (8 * w - 1) then (v : Int) else (v : Int) - 2 ^ (8 * w)

/-! ### Span coalescer (`union_range`, s7_python.py lines 418-426) -/

/-- Python sorted-order on `[begin, end]` pairs: lexicographic non-strict. -/
def pairLe (p q : Int × Int) : Bool :=
  decide (p.1 < q.1) || (decide (p.1 = q.1) && decide (p.2 ≤ q.2))

/-- One iteration of the `union_range` loop.  The accumulator is kept in
reverse (its head is Python's `b[-1]`): if the last kept interval reaches to
within one byte of the next interval's begin, extend it, else start a new
interval. -/
def union_step (acc : List (Int × Int)) (iv : Int × Int) : List (Int × Int) :=
  match acc with
  | [] => [iv]
  | (s, e) :: rest =>
    if iv.1 - 1 ≤ e then (s, max e iv.2) :: rest else iv :: (s, e) :: rest

/-- The span coalescer: sort the inclusive intervals, then fold, merging
overlapping or adjacent intervals (s7_python.py lines 418-426). -/
def union_range (a : List (Int × Int)) : List (Int × Int) :=
  ((a.mergeSort pairLe).foldl union_step []).reverse

/-- The set of byte positions covered by a list of inclusive intervals. -/
def covers (l : List (Int × Int)) (x : Int) : Prop :=
  ∃ p ∈ l, p.1 ≤ x ∧ x ≤ p.2

/-! ### Type catalog -/

/-- The scalar size table used (identically) in `get_value`, `get_type_size_`,
`get_type_size` and `get_struct_values`; a Python dict, modelled as the
lookup function it denotes.  `none` is `type_name not in type_size.keys()`. -/
def type_size_map (t : String) : Option Nat :=
  if t = "bool" then some 1
  else if t = "byte" then some 1
  else if t = "char" then some 1
  else if t = "word" then some 2
  else if t = "dword" then some 4
  else if t = "usint" then some 1
  else if t = "uint" then some 2
  else if t = "udint" then some 4
  else if t = "ulint" then some 8
  else if t = "sint" then some 1
  else if t = "int" then some 2
  else if t = "dint" then some 4
  else if t = "lint" then some 8
  else if t = "real" then some 4
  else if t = "lreal" then some 8
  else if t = "string" then some 256
  else if t = "time" then some 4
  else if t = "ltime" then some 8
  else if t = "date_and_time" then some 8
  else none

/-- Embeds `convert_key` (s7_python.py lines 807-811): `int(float(key))` on an
unsigned decimal key such as "260.0"; `none` models the branch where
`float(key)` raises `ValueError` and the key string itself is returned. -/
def convert_key (key : String) : Option Nat :=
  match splitOnStr '.' key with
  | [a] =>
    if a.data ≠ [] ∧ a.data.all isDigitChar then some (digitsToNat a.data) else none
  | [a, b] =>
    if (a.data ≠ [] ∨ b.data ≠ []) ∧ a.data.all isDigitChar ∧ b.data.all isDigitChar
    then some (digitsToNat a.data) else none
  | _ => none

/-- Embeds `get_type_size_` (s7_python.py lines 814-824): scalar-table lookup
only; `none` models the `ValueError` on any other type name. -/
def get_type_size_ (type_name : String) : Option Nat :=
  type_size_map (normType type_name)

/-- Embeds `get_array_size` (s7_python.py lines 779-790): `re.match` of
`(\d+)\.\.(\d+)` gives `hi - lo + 1`, else a leading `(\d+)` gives the value,
else the `ValueError` is modelled by `none`. -/
def get_array_size (dimension : String) : Option Int :=
  let s := dimension.data
  let d1 := leadingDigits s
  if d1 = [] then none
  else
    match s.drop d1.length with
    | '.' :: '.' :: r2 =>
      let d2 := leadingDigits r2
      if d2 = [] then some (digitsToNat d1)
      else some ((digitsToNat d2 : Int) - (digitsToNat d1 : Int) + 1)
    | _ => some (digitsToNat d1)

/-- A canonical offset key of the schema: decimal byte part, a dot, decimal
bit part (the `"<byte>.<bit>"` format of the register map), with no leading
zero on the byte part. -/
def WellFormedKey (k : String) : Prop :=
  ∃ a b : List Char, k.data = a ++ '.' :: b ∧ a ≠ [] ∧ b ≠ [] ∧
    a.all isDigitChar ∧ b.all isDigitChar ∧ (a.head? = some '0' → a = ['0'])

/-- A field of a struct definition: the value of one offset key of the
`defintion` dict.  Only `name` and `type` are read by the code that consumes
these entries. -/
structure FieldSpec where
  name : String
  type : String

/-- A struct definition: the `defintion` dict as an ordered key-value list. -/
abbrev StructDef := List (String × FieldSpec)

/-- A register-map item: `name`, `type`, optional `defintion`, optional
`offset` (the inter-element padding). -/
structure Item where
  name : String
  type : String
  defintion : Option StructDef := none
  offset : Option Int := none

/-- Embeds `get_struct_size` (s7_python.py lines 793-804).  Python takes
`min(s)` and `max(s)` of the list of offset-key strings, so both extrema are
by string comparison; the vestigial `sorted(...)` call is order-irrelevant
(only membership of `s` is consumed) and not reproduced.  `none` models the
`ValueError` raised when the minimum key does not convert to 0, or when
`convert_key(max(s))` returns a string, or when `get_type_size_` fails on the
maximum key's type. -/
def get_struct_size (defintion : StructDef) : Option Nat :=
  let ks := defintion.map Prod.fst
  match pyMin ks, pyMax ks with
  | some mn, some mx =>
    if convert_key mn ≠ some 0 then none
    else
      match convert_key mx, defintion.find? (fun q => q.1 = mx) with
      | some k, some p => (get_type_size_ p.2.type).map (fun sz => k + sz)
      | _, _ => none
  | _, _ => none

/-- Embeds `get_type_size` (s7_python.py lines 827-883): total byte size of an
item, resolving scalars by table, structs via `get_struct_size`, bracketed
array forms by parsing the dimension; `none` models the `ValueError`. -/
def get_type_size (item : Item) : Option Int :=
  let type_name := normType item.type
  match type_size_map type_name with
  | some sz => some (sz : Int)
  | none =>
    if type_name = "struct" then
      match item.defintion with
      | some d => (get_struct_size d).map (fun n => (n : Int))
      | none => none
    else
      let offset := item.offset.getD 0
      let type_split := splitOnStr '[' type_name
      if type_split.length = 2 ∧ lastCharIs type_name ']' then
        match get_array_size (dropLastStr (type_split.getD 1 "")) with
        | none => none
        | some array_size =>
          if type_split.getD 0 "" = "string" then some (array_size + 2)
          else if type_split.getD 0 "" = "struct" then
            match item.defintion with
            | some d =>
              (get_struct_size d).map (fun n => ((n : Int) + offset) * array_size)
            | none => none
          else if type_split.getD 0 "" = "bool" then
            some ((array_size + 7) / 8)
          else
            match type_size_map (type_split.getD 0 "") with
            | some sz => some (((sz : Int) + offset) * array_size)
            | none => none
      else if type_split.getD 0 "" = "string" ∧ type_split.length = 3 ∧
              lastCharIs type_name ']' then
        match get_array_size (dropLastStr (type_split.getD 1 "")),
              get_array_size (dropLastStr (type_split.getD 2 "")) with
        | some string_dim, some array_size => some (array_size * (string_dim + 2))
        | _, _ => none
      else none

/-- The byte offsets at which the array-of-string branch of `get_value`
(s7_python.py lines 651-675) reads successive string elements:
`range(byte_index, byte_index + (string_size + offset) * array_size,
string_size + offset)` with `string_size = max_length + 2`. -/
def get_value_string_array_offsets (item : Item) (byte_index : Int) : Option (List Int) :=
  let type_name := normType item.type
  let offset := item.offset.getD 0
  let type_split := splitOnStr '[' type_name
  if type_split.getD 0 "" = "string" ∧ type_split.length = 3 ∧
     lastCharIs type_name ']' then
    match get_array_size (dropLastStr (type_split.getD 1 "")),
          get_array_size (dropLastStr (type_split.getD 2 "")) with
    | some string_dim, some array_size =>
      let string_size := string_dim + 2
      some (pyRange byte_index (byte_index + (string_size + offset) * array_size)
              (string_size + offset))
    | _, _ => none
  else none

/-! ### Byte decoders

Decoders defined in s7_python.py itself, plus the getters the plugin imports
from the snap7 utility library (`from snap7.util import *`), modelled from
that library's documented layout (fixed-width big-endian reads).  `none`
models the `IndexError`/`struct.error` raised when the required bytes are not
in the buffer. -/

/-- Embeds `get_lreal` (s7_python.py lines 429-443): slices 8 bytes and
unpacks a big-endian double; the float value is kept abstract as a function
of the consumed bytes. -/
def get_lreal (b : Bytes) (i : Nat) : Option PyVal :=
  let data := pySlice b i (i + 8)
  if data.length = 8 then some (.vraw "lreal" (data.map Fin.val)) else none

/-- Embeds `get_lword` (s7_python.py lines 446-460): the source slices only
FOUR bytes (`bytearray_[byte_index:byte_index + 4]`) but then packs them with
`struct.pack('8B', *data)`, which needs exactly eight values, so the call
raises `struct.error` unconditionally. -/
def get_lword (b : Bytes) (i : Nat) : Option Nat :=
  let data := pySlice b i (i + 4)
  if data.length = 8 then some (beVal data) else none

/-- Embeds `get_uint` (s7_python.py lines 463-478): two bytes at `byte_index`
decoded as big-endian unsigned (`>H`); a shorter slice makes `data[1]` raise
`IndexError`.  The `& 0xff` masks of the source are the identity on bytes. -/
def get_uint (b : Bytes) (i : Nat) : Option Nat :=
  if i + 2 ≤ b.length then
    some (256 * (b.getD i 0).val + (b.getD (i + 1) 0).val)
  else none

/-- Embeds `get_udint` (s7_python.py lines 481-497): four bytes, big-endian
unsigned (`>L`); `struct.pack('4B', *data)` raises unless the slice has
exactly four bytes. -/
def get_udint (b : Bytes) (i : Nat) : Option Nat :=
  if i + 4 ≤ b.length then some (beVal (pySlice b i (i + 4))) else none

/-- Embeds `get_ulint` (s7_python.py lines 500-516): eight bytes, big-endian
unsigned (`>Q`). -/
def get_ulint (b : Bytes) (i : Nat) : Option Nat :=
  if i + 8 ≤ b.length then some (beVal (pySlice b i (i + 8))) else none

/-- Embeds `get_lint` (s7_python.py lines 519-533): eight bytes, big-endian
signed (`>q`). -/
def get_lint (b : Bytes) (i : Nat) : Option Int :=
  if i + 8 ≤ b.length then some (toSigned (beVal (pySlice b i (i + 8))) 8) else none

/-- Embeds `get_byte_` (s7_python.py lines 538-552): one byte, unsigned. -/
def get_byte_ (b : Bytes) (i : Nat) : Option Nat :=
  if i + 1 ≤ b.length then some (b.getD i 0).val else none

/-- Embeds `get_char_` (s7_python.py lines 555-568): one byte returned as a
bytes object of length one (`struct.unpack('s', ...)`). -/
def get_char_ (b : Bytes) (i : Nat) : Option PyVal :=
  if i + 1 ≤ b.length then some (.vbytes [(b.getD i 0).val]) else none

/-- Modelled from snap7.util.get_bool: bit `bool_index` of the byte at
`byte_index` (`(byte_value >> bit) & 1`). -/
def get_bool (b : Bytes) (i : Nat) (bool_index : Nat) : Option Bool :=
  if i + 1 ≤ b.length then some ((b.getD i 0).val.testBit bool_index) else none

/-- Modelled from snap7.util.get_word: two bytes, big-endian unsigned. -/
def get_word (b : Bytes) (i : Nat) : Option Nat :=
  if i + 2 ≤ b.length then some (beVal (pySlice b i (i + 2))) else none

/-- Modelled from snap7.util.get_dword: four bytes, big-endian unsigned. -/
def get_dword (b : Bytes) (i : Nat) : Option Nat :=
  if i + 4 ≤ b.length then some (beVal (pySlice b i (i + 4))) else none

/-- Modelled from snap7.util.get_int: two bytes, big-endian signed (`>h`). -/
def get_int (b : Bytes) (i : Nat) : Option Int :=
  if i + 2 ≤ b.length then some (toSigned (beVal (pySlice b i (i + 2))) 2) else none

/-- Modelled from snap7.util.get_dint: four bytes, big-endian signed (`>i`). -/
def get_dint (b : Bytes) (i : Nat) : Option Int :=
  if i + 4 ≤ b.length then some (toSigned (beVal (pySlice b i (i + 4))) 4) else none

/-- Modelled from snap7.util.get_sint: one byte, signed. -/
def get_sint (b : Bytes) (i : Nat) : Option Int :=
  if i + 1 ≤ b.length then some (toSigned (b.getD i 0).val 1) else none

/-- Modelled from snap7.util.get_usint: one byte, unsigned. -/
def get_usint (b : Bytes) (i : Nat) : Option Nat :=
  if i + 1 ≤ b.length then some (b.getD i 0).val else none

/-- Modelled from snap7.util.get_real: four bytes, big-endian IEEE single;
the float value is kept abstract as a function of the consumed bytes. -/
def get_real (b : Bytes) (i : Nat) : Option PyVal :=
  if i + 4 ≤ b.length then
    some (.vraw "real" ((pySlice b i (i + 4)).map Fin.val))
  else none

/-- Modelled from snap7.util.get_s5time: two bytes rendered as a time string;
kept abstract as a function of the consumed bytes. -/
def get_s5time (b : Bytes) (i : Nat) : Option PyVal :=
  if i + 2 ≤ b.length then
    some (.vraw "s5time" ((pySlice b i (i + 2)).map Fin.val))
  else none

/-- Modelled from snap7.util.get_dt: eight BCD bytes rendered as a timestamp
string; kept abstract as a function of the consumed bytes. -/
def get_dt (b : Bytes) (i : Nat) : Option PyVal :=
  if i + 8 ≤ b.length then
    some (.vraw "date_and_time" ((pySlice b i (i + 8)).map Fin.val))
  else none

/-- Modelled from snap7.util.get_string: the actual length is the second
header byte, capped at `max_size`; the payload slice truncates silently. -/
def get_string (b : Bytes) (i : Nat) (max_size : Int) : Option String :=
  if i + 2 ≤ b.length then
    let sz0 : Int := (b.getD (i + 1) 0).val
    let sz := if max_size < sz0 then max_size else sz0
    some ⟨(pySlice b (i + 2) (i + 2 + sz.toNat)).map (fun x => Char.ofNat x.val)⟩
  else none

/-- The dispatch chain of `get_value_` after the type name has been
normalised (s7_python.py lines 696-776). -/
def dispatch_value (b : Bytes) (i : Nat) (t : String) (bool_index : Option Nat)
    (max_size : Int) : Option PyVal :=
  match t with
  | "bool" =>
    match bool_index with
    | none => some .vnone
    | some bi => (get_bool b i bi).map .vbool
  | "string" => (get_string b i max_size).map .vstr
  | "real" => get_real b i
  | "lreal" => get_lreal b i
  | "word" => (get_word b i).map (fun n => .vint n)
  | "dword" => (get_dword b i).map (fun n => .vint n)
  | "lword" => (get_lword b i).map (fun n => .vint n)
  | "sint" => (get_sint b i).map .vint
  | "int" => (get_int b i).map .vint
  | "dint" => (get_dint b i).map .vint
  | "lint" => (get_lint b i).map .vint
  | "usint" => (get_usint b i).map (fun n => .vint n)
  | "uint" => (get_uint b i).map (fun n => .vint n)
  | "udint" => (get_udint b i).map (fun n => .vint n)
  | "ulint" => (get_ulint b i).map (fun n => .vint n)
  | "byte" => (get_byte_ b i).map (fun n => .vint n)
  | "char" => get_char_ b i
  | "time" => (get_dint b i).map .vint
  | "ltime" => (get_lint b i).map .vint
  | "s5time" => get_s5time b i
  | "date_and_time" => get_dt b i
  | "date" => some .vnone
  | "time_of_day" => some .vnone
  | _ => some .vnone

/-- Embeds `get_value_` (s7_python.py lines 680-776): normalise the type name
and dispatch.  Unknown names, `date`, `time_of_day`, and `bool` without a bit
index all return Python `None`. -/
def get_value_ (b : Bytes) (byte_index : Nat) (type_ : String)
    (bool_index : Option Nat) (max_size : Int := 254) : Option PyVal :=
  dispatch_value b byte_index (normType type_) bool_index max_size

/-- Embeds `get_byte_and_bool_index` (s7_python.py lines 886-894): split the
offset key at the dots; the part before the first dot is the byte index, the
part after it is the bit index when there are exactly two parts. -/
def get_byte_and_bool_index (index : String) : Option (Nat × Nat) :=
  match splitOnStr '.' index with
  | [a] => (parseIntStr a).map (fun n => (n, 0))
  | [a, c] =>
    match parseIntStr a, parseIntStr c with
    | some x, some y => some (x, y)
    | _, _ => none
  | a :: _ :: _ :: _ => (parseIntStr a).map (fun n => (n, 0))
  | [] => none

/-- The element reads of the scalar-array branch of `get_struct_values`
(s7_python.py lines 937-943): one `get_value_` per offset, collected in
order; any raising element read aborts the whole list. -/
def readScalarArray (b : Bytes) (tname : String) : List Nat → Option PyList
  | [] => some .nil
  | j :: rest =>
    match get_value_ b j tname none 254 with
    | none => none
    | some v => (readScalarArray b tname rest).map (.cons v)

/-- The element reads of the bool-array branch of `get_struct_values`
(s7_python.py lines 925-935): bit `n % 8` of the byte at
`byte_index + n / 8` (the struct-local byte offset of the field is not
added, exactly as in the source). -/
def readBoolArray (b : Bytes) (byte_index : Nat) : List Nat → Option PyList
  | [] => some .nil
  | n :: rest =>
    match get_value_ b (byte_index + n / 8) "bool" (some (n % 8)) 254 with
    | none => none
    | some v => (readBoolArray b byte_index rest).map (.cons v)

/-- Processing of one `(index, item)` field of a struct definition by
`get_struct_values` (s7_python.py lines 900-948): parse the offset key,
normalise the type, then either decode a table scalar, a bracketed
string/bool/scalar array, or fall through the bare `pass` branches without
adding an entry.  `none` models an exception escaping the loop body. -/
def processField (b : Bytes) (byte_index : Nat) (key : String) (f : FieldSpec)
    (o : PyDict) : Option PyDict :=
  match get_byte_and_bool_index key with
  | none => none
  | some (sbi, bi) =>
    let type_name := normType f.type
    let type_split := splitOnStr '[' type_name
    if (type_size_map type_name).isSome then
      (get_value_ b (byte_index + sbi) type_name (some bi) 254).map (dictSet o f.name)
    else if type_split.length = 2 ∧ lastCharIs type_name ']' then
      match get_array_size (dropLastStr (type_split.getD 1 "")) with
      | none => none
      | some array_size =>
        if type_split.getD 0 "" = "string" then
          (get_value_ b (byte_index + sbi) type_name (some bi) array_size).map
            (dictSet o f.name)
        else if type_split.getD 0 "" = "bool" then
          (readBoolArray b byte_index (List.range array_size.toNat)).map
            (fun a => dictSet o f.name (.vlist a))
        else
          match type_size_map (type_split.getD 0 "") with
          | some sz =>
            (readScalarArray b (type_split.getD 0 "")
                ((List.range array_size.toNat).map
                  (fun k => byte_index + sbi + k * sz))).map
              (fun a => dictSet o f.name (.vlist a))
          | none => some o
    else some o

/-- The field loop of `get_struct_values`, threading the result dict through
`processField`. -/
def get_struct_values_aux (b : Bytes) (byte_index : Nat) :
    StructDef → PyDict → Option PyDict
  | [], o => some o
  | (k, f) :: rest, o =>
    match processField b byte_index k f o with
    | none => none
    | some o2 => get_struct_values_aux b byte_index rest o2

/-- Embeds `get_struct_values` (s7_python.py lines 897-950): decode the
fields of a struct definition at `byte_index` into a dict keyed by field
name.  `none` models an exception aborting the whole call. -/
def get_struct_values (b : Bytes) (byte_index : Nat) (defintion : StructDef) :
    Option PyDict :=
  get_struct_values_aux b byte_index defintion .dnil

/-! ### Value tree flattener (`walk`, s7_python.py lines 962-980) -/

mutual

/-- Embeds `walk` (s7_python.py lines 962-980): flatten a value tree to
(flat key, scalar) pairs.  A scalar yields `(pre, value)`; recursion into a
dict-valued entry uses `pre + key` (no separator) with the default separator;
lists enumerate as `base ++ str(index)`. -/
def walk : PyVal → String → String → List (String × PyVal)
  | .vdict d, pre, sep => walkDict d pre sep
  | .vlist l, pre, sep => walkListFrom l 0 (pre ++ sep)
  | v, pre, _ => [(pre, v)]

/-- The dict branch of `walk`: a dict-valued entry recurses with `pre ++ key`
and the default separator, a list-valued entry enumerates with
`pre ++ sep ++ key ++ sep ++ str(index)`, anything else yields
`(pre ++ sep ++ key, value)`. -/
def walkDict : PyDict → String → String → List (String × PyVal)
  | .dnil, _, _ => []
  | .dcons k v t, pre, sep =>
    (match v with
     | .vdict d => walkDict d (pre ++ k) "_"
     | .vlist l => walkListFrom l 0 (pre ++ sep ++ k ++ sep)
     | w => [(pre ++ sep ++ k, w)]) ++ walkDict t pre sep

/-- The list branch of `walk`: element `i` recurses with prefix
`base ++ str(i)` and the default separator. -/
def walkListFrom : PyList → Nat → String → List (String × PyVal)
  | .nil, _, _ => []
  | .cons v t, i, base => walk v (base ++ toString i) "_" ++ walkListFrom t (i + 1) base

end

end S7

namespace S7

/-! ### Properties of the span coalescer -/

theorem pairLe_trans (a b c : Int × Int) (h1 : pairLe a b) (h2 : pairLe b c) :
    pairLe a c := by
  simp only [pairLe, Bool.or_eq_true, Bool.and_eq_true, decide_eq_true_eq] at h1 h2 ⊢
  omega

theorem pairLe_total (a b : Int × Int) : pairLe a b || pairLe b a := by
  simp only [pairLe, Bool.or_eq_true, Bool.and_eq_true, decide_eq_true_eq]
  omega

theorem covers_nil (x : Int) : ¬ covers [] x := by
  rintro ⟨p, hp, _⟩
  exact absurd hp (List.not_mem_nil p)

theorem covers_cons (p : Int × Int) (l : List (Int × Int)) (x : Int) :
    covers (p :: l) x ↔ (p.1 ≤ x ∧ x ≤ p.2) ∨ covers l x := by
  constructor
  · rintro ⟨q, hq, h1, h2⟩
    rcases List.mem_cons.mp hq with rfl | hq
    · exact Or.inl ⟨h1, h2⟩
    · exact Or.inr ⟨q, hq, h1, h2⟩
  · rintro (⟨h1, h2⟩ | ⟨q, hq, h1, h2⟩)
    · exact ⟨p, List.mem_cons_self p l, h1, h2⟩
    · exact ⟨q, List.mem_cons_of_mem p hq, h1, h2⟩

theorem union_step_spec (acc : List (Int × Int)) (iv : Int × Int)
    (hwfa : ∀ p ∈ acc, p.1 ≤ p.2) (hiv : iv.1 ≤ iv.2)
    (hgap : List.Pairwise (fun p q : Int × Int => q.2 + 2 ≤ p.1) acc)
    (hb : ∀ p ∈ acc, p.1 ≤ iv.1) :
    (∀ p ∈ union_step acc iv, p.1 ≤ p.2) ∧
    List.Pairwise (fun p q : Int × Int => q.2 + 2 ≤ p.1) (union_step acc iv) ∧
    (∀ x, covers (union_step acc iv) x ↔ covers acc x ∨ (iv.1 ≤ x ∧ x ≤ iv.2)) ∧
    (∀ p ∈ union_step acc iv, p.1 = iv.1 ∨ p.1 ∈ acc.map Prod.fst) := by
  match acc with
  | [] =>
    refine ⟨?_, ?_, ?_, ?_⟩
    · intro p hp
      rcases List.mem_singleton.mp hp with rfl
      exact hiv
    · exact List.pairwise_singleton _ _
    · intro x
      rw [show union_step [] iv = [iv] from rfl, covers_cons]
      constructor
      · rintro (h | h)
        · exact Or.inr h
        · exact absurd h (covers_nil x)
      · rintro (h | h)
        · exact absurd h (covers_nil x)
        · exact Or.inl h
    · intro p hp
      rcases List.mem_singleton.mp hp with rfl
      exact Or.inl rfl
  | (s, e) :: rest =>
    have hse : s ≤ e := hwfa (s, e) (List.mem_cons_self _ _)
    have hsiv : s ≤ iv.1 := hb (s, e) (List.mem_cons_self _ _)
    obtain ⟨hgap1, hgap2⟩ := List.pairwise_cons.mp hgap
    by_cases hc : iv.1 - 1 ≤ e
    · have hstep : union_step ((s, e) :: rest) iv = (s, max e iv.2) :: rest := by
        simp [union_step, hc]
      refine ⟨?_, ?_, ?_, ?_⟩
      · intro p hp
        rw [hstep] at hp
        rcases List.mem_cons.mp hp with rfl | hp
        · simp only
          rw [max_def]
          split_ifs <;> omega
        · exact hwfa p (List.mem_cons_of_mem _ hp)
      · rw [hstep]
        exact List.pairwise_cons.mpr ⟨fun q hq => hgap1 q hq, hgap2⟩
      · intro x
        rw [hstep, covers_cons, covers_cons]
        have key : (s ≤ x ∧ x ≤ max e iv.2) ↔
            ((s ≤ x ∧ x ≤ e) ∨ (iv.1 ≤ x ∧ x ≤ iv.2)) := by
          rw [max_def]
          split_ifs <;> omega
        rw [key]
        tauto
      · intro p hp
        rw [hstep] at hp
        rcases List.mem_cons.mp hp with rfl | hp
        · exact Or.inr (by simp)
        · exact Or.inr (List.mem_map_of_mem Prod.fst (List.mem_cons_of_mem _ hp))
    · have hstep : union_step ((s, e) :: rest) iv = iv :: (s, e) :: rest := by
        simp [union_step, hc]
      refine ⟨?_, ?_, ?_, ?_⟩
      · intro p hp
        rw [hstep] at hp
        rcases List.mem_cons.mp hp with rfl | hp
        · exact hiv
        · exact hwfa p hp
      · rw [hstep]
        refine List.pairwise_cons.mpr ⟨?_, hgap⟩
        intro q hq
        rcases List.mem_cons.mp hq with rfl | hq
        · omega
        · have := hgap1 q hq
          omega
      · intro x
        rw [hstep, covers_cons]
        tauto
      · intro p hp
        rw [hstep] at hp
        rcases List.mem_cons.mp hp with rfl | hp
        · exact Or.inl rfl
        · exact Or.inr (List.mem_map_of_mem Prod.fst hp)

theorem union_fold_spec : ∀ (pending acc : List (Int × Int)),
    (∀ p ∈ pending, p.1 ≤ p.2) → (∀ p ∈ acc, p.1 ≤ p.2) →
    List.Pairwise (fun p q : Int × Int => p.1 ≤ q.1) pending →
    List.Pairwise (fun p q : Int × Int => q.2 + 2 ≤ p.1) acc →
    (∀ p ∈ acc, ∀ q ∈ pending, p.1 ≤ q.1) →
    (∀ p ∈ List.foldl union_step acc pending, p.1 ≤ p.2) ∧
    List.Pairwise (fun p q : Int × Int => q.2 + 2 ≤ p.1)
      (List.foldl union_step acc pending) ∧
    (∀ x, covers (List.foldl union_step acc pending) x ↔
      covers acc x ∨ covers pending x)
  | [], acc, _, hwfa, _, hgap, _ => by
    refine ⟨hwfa, hgap, fun x => ?_⟩
    simp only [List.foldl_nil]
    exact ⟨fun h => Or.inl h, fun h => h.resolve_right (covers_nil x)⟩
  | iv :: rest, acc, hwfp, hwfa, hsort, hgap, hb => by
    obtain ⟨hsort1, hsort2⟩ := List.pairwise_cons.mp hsort
    obtain ⟨w1, w2, w3, w4⟩ := union_step_spec acc iv hwfa
      (hwfp iv (List.mem_cons_self _ _)) hgap
      (fun p hp => hb p hp iv (List.mem_cons_self _ _))
    obtain ⟨r1, r2, r3⟩ := union_fold_spec rest (union_step acc iv)
      (fun p hp => hwfp p (List.mem_cons_of_mem _ hp)) w1 hsort2 w2
      (by
        intro p hp q hq
        rcases w4 p hp with h | h
        · rw [h]
          exact hsort1 q hq
        · obtain ⟨p0, hp0, hp0e⟩ := List.mem_map.mp h
          have := hb p0 hp0 q (List.mem_cons_of_mem _ hq)
          omega)
    refine ⟨r1, r2, fun x => ?_⟩
    rw [List.foldl_cons]
    rw [r3 x, w3 x, covers_cons]
    tauto

theorem union_range_core (a : List (Int × Int)) (hwf : ∀ p ∈ a, p.1 ≤ p.2) :
    (∀ p ∈ union_range a, p.1 ≤ p.2) ∧
    List.Pairwise (fun p q : Int × Int => p.2 + 2 ≤ q.1) (union_range a) ∧
    (∀ x, covers (union_range a) x ↔ covers a x) := by
  have hperm := List.mergeSort_perm a pairLe
  have hsorted : List.Pairwise (fun p q : Int × Int => pairLe p q = true)
      (a.mergeSort pairLe) :=
    @List.sorted_mergeSort _ pairLe pairLe_trans pairLe_total a
  have hsortLe : List.Pairwise (fun p q : Int × Int => p.1 ≤ q.1)
      (a.mergeSort pairLe) := by
    refine hsorted.imp ?_
    intro p q h
    simp only [pairLe, Bool.or_eq_true, Bool.and_eq_true, decide_eq_true_eq] at h
    omega
  obtain ⟨f1, f2, f3⟩ := union_fold_spec (a.mergeSort pairLe) []
    (fun p hp => hwf p (hperm.mem_iff.mp hp)) (by simp) hsortLe (by simp) (by simp)
  refine ⟨?_, ?_, ?_⟩
  · intro p hp
    exact f1 p (List.mem_reverse.mp hp)
  · exact List.pairwise_reverse.mpr f2
  · intro x
    have hrev : covers (union_range a) x ↔
        covers (List.foldl union_step [] (a.mergeSort pairLe)) x := by
      constructor
      · rintro ⟨p, hp, h⟩
        exact ⟨p, List.mem_reverse.mp hp, h⟩
      · rintro ⟨p, hp, h⟩
        exact ⟨p, List.mem_reverse.mpr hp, h⟩
    rw [hrev, f3 x]
    have hms : covers (a.mergeSort pairLe) x ↔ covers a x := by
      constructor
      · rintro ⟨p, hp, h⟩
        exact ⟨p, hperm.mem_iff.mp hp, h⟩
      · rintro ⟨p, hp, h⟩
        exact ⟨p, hperm.mem_iff.mpr hp, h⟩
    rw [hms]
    exact ⟨fun h => h.resolve_left (covers_nil x), Or.inr⟩


/-- C2: for every finite list of inclusive (start, end) byte intervals, the
span coalescer `union_range` returns a list that is sorted by start, pairwise
disjoint, covers exactly the union of the inputs, and leaves a gap of at
least two byte positions between consecutive outputs (no two outputs are
mergeable under the rule `next.start <= last.end + 1`). -/
theorem union_range_spec (a : List (Int × Int)) (hwf : ∀ p ∈ a, p.1 ≤ p.2) :
    List.Pairwise (fun p q : Int × Int => p.1 ≤ q.1) (union_range a) ∧
    List.Pairwise (fun p q : Int × Int =>
      ∀ x : Int, ¬(p.1 ≤ x ∧ x ≤ p.2 ∧ q.1 ≤ x ∧ x ≤ q.2)) (union_range a) ∧
    (∀ x : Int, covers (union_range a) x ↔ covers a x) ∧
    List.Chain' (fun p q : Int × Int => ¬(q.1 ≤ p.2 + 1)) (union_range a) := by
  obtain ⟨hwfo, hgap, hcov⟩ := union_range_core a hwf
  refine ⟨?_, ?_, hcov, ?_⟩
  · refine hgap.imp_of_mem ?_
    intro p q hp _ h
    have := hwfo p hp
    omega
  · refine hgap.imp ?_
    intro p q h x
    omega
  · exact (hgap.imp (fun h => by omega)).chain'

/-- Witness for `union_range_spec` at the concrete input [(0, 1), (4, 7)]. -/
theorem union_range_spec_witness :
    (∀ p ∈ ([(0, 1), (4, 7)] : List (Int × Int)), p.1 ≤ p.2) ∧
    (List.Pairwise (fun p q : Int × Int => p.1 ≤ q.1)
        (union_range [(0, 1), (4, 7)]) ∧
      List.Pairwise (fun p q : Int × Int =>
          ∀ x : Int, ¬(p.1 ≤ x ∧ x ≤ p.2 ∧ q.1 ≤ x ∧ x ≤ q.2))
        (union_range [(0, 1), (4, 7)]) ∧
      (∀ x : Int, covers (union_range [(0, 1), (4, 7)]) x ↔
        covers [(0, 1), (4, 7)] x) ∧
      List.Chain' (fun p q : Int × Int => ¬(q.1 ≤ p.2 + 1))
        (union_range [(0, 1), (4, 7)])) :=
  ⟨by decide, union_range_spec [(0, 1), (4, 7)] (by decide)⟩

theorem union_fold_nomerge : ∀ (r acc : List (Int × Int)),
    List.Chain' (fun p q : Int × Int => p.2 + 2 ≤ q.1) r →
    (∀ s e, acc.head? = some (s, e) → ∀ p ∈ r.head?, e + 2 ≤ p.1) →
    List.foldl union_step acc r = r.reverse ++ acc
  | [], acc, _, _ => by simp
  | iv :: rest, acc, hch, hhd => by
    have hstep : union_step acc iv = iv :: acc := by
      match acc with
      | [] => rfl
      | (s, e) :: t =>
        have h2 : e + 2 ≤ iv.1 := hhd s e rfl iv (by simp)
        simp only [union_step]
        rw [if_neg (by omega)]
    rw [List.foldl_cons, hstep,
      union_fold_nomerge rest (iv :: acc) hch.tail ?_]
    · simp
    · intro s e he p hp
      have hse : iv = (s, e) := by
        simpa using he
      match rest, hp with
      | q :: rest2, hp =>
        have hq : p = q := by
          have := hp
          simp only [List.head?_cons, Option.mem_def, Option.some_inj] at this
          exact this.symm
        have := List.Chain'.rel_head hch
        subst hq
        rw [hse] at this
        exact this

/-- C10: the span coalescer is idempotent on lists of inclusive intervals:
coalescing an already-coalesced list changes nothing. -/
theorem union_range_idem (a : List (Int × Int)) (hwf : ∀ p ∈ a, p.1 ≤ p.2) :
    union_range (union_range a) = union_range a := by
  obtain ⟨hwfo, hgap, _⟩ := union_range_core a hwf
  have hstrict : List.Pairwise (fun p q : Int × Int => pairLe p q = true)
      (union_range a) := by
    refine hgap.imp_of_mem ?_
    intro p q hp _ h
    have := hwfo p hp
    simp only [pairLe, Bool.or_eq_true, Bool.and_eq_true, decide_eq_true_eq]
    omega
  have hms : (union_range a).mergeSort pairLe = union_range a :=
    List.mergeSort_of_sorted hstrict
  have hchain : List.Chain' (fun p q : Int × Int => p.2 + 2 ≤ q.1)
      (union_range a) := hgap.chain'
  have hfold := union_fold_nomerge (union_range a) [] hchain
    (by intro s e he; simp at he)
  calc union_range (union_range a)
      = (((union_range a).mergeSort pairLe).foldl union_step []).reverse := rfl
    _ = ((union_range a).foldl union_step []).reverse := by rw [hms]
    _ = ((union_range a).reverse ++ []).reverse := by rw [hfold]
    _ = union_range a := by simp

/-- Witness for `union_range_idem` at the concrete input [(0, 3), (4, 7)]. -/
theorem union_range_idem_witness :
    (∀ p ∈ ([(0, 3), (4, 7)] : List (Int × Int)), p.1 ≤ p.2) ∧
    union_range (union_range [(0, 3), (4, 7)]) = union_range [(0, 3), (4, 7)] :=
  ⟨by decide, union_range_idem [(0, 3), (4, 7)] (by decide)⟩


/-! ### Concrete evaluations of the type catalog and the decoders -/

/-- C1: the size of a struct is not computed from the field with the
numerically largest offset.  For the definition with offset keys "0.0",
"2.0" and "10.0" (types Int, Real, LReal), `get_struct_size` selects the
field by `max` over the key strings, i.e. lexicographically, picking "2.0"
and returning 2 + 4 = 6, where selection by ascending numeric offset value
would pick byte 10 and return 10 + 8 = 18. -/
theorem get_struct_size_uses_string_max :
    get_struct_size
      [("0.0", ⟨"A", "Int"⟩), ("2.0", ⟨"B", "Real"⟩), ("10.0", ⟨"C", "LReal"⟩)]
      = some 6 := rfl

/-- C3: for an array of 3 strings of max length 5 with inter-element padding
1, `get_type_size` returns 3 * (5 + 2) = 21, ignoring the padding, while the
string-array decode branch of `get_value` strides by (5 + 2) + 1 = 8 and
reads elements at offsets 0, 8 and 16 (so through byte 22).  The claimed
uniform rule ((m + 2) + pad) * n would give 24. -/
theorem get_type_size_string_array_ignores_padding :
    get_type_size ⟨"TESTVAR", "String[5][3]", none, some 1⟩ = some 21 ∧
    get_value_string_array_offsets ⟨"TESTVAR", "String[5][3]", none, some 1⟩ 0
      = some [0, 8, 16] := ⟨rfl, rfl⟩

/-- C7: `get_lword` never returns a value: the source slices four bytes but
packs them with `struct.pack('8B', ...)`, which needs exactly eight, so the
call raises `struct.error` on every buffer and index instead of performing
the claimed 8-byte big-endian decode. -/
theorem get_lword_always_fails (b : Bytes) (i : Nat) : get_lword b i = none := by
  have h : (pySlice b i (i + 4)).length ≤ 4 := by
    simp only [pySlice, List.length_drop, List.length_take]
    omega
  simp only [get_lword]
  rw [if_neg (by omega)]

/-- C9: decoding a 16-bit unsigned integer at index i of a buffer with
i + 2 <= len(b) returns the big-endian value 256 * b[i] + b[i+1]. -/
theorem get_uint_spec (b : Bytes) (i : Nat) (h : i + 2 ≤ b.length) :
    get_uint b i =
      some (256 * (b.get ⟨i, by omega⟩).val + (b.get ⟨i + 1, by omega⟩).val) := by
  simp only [get_uint, if_pos h]
  have h1 : b.getD i 0 = b.get ⟨i, by omega⟩ := by
    rw [List.getD_eq_getElem b 0 (show i < b.length by omega), List.get_eq_getElem]
  have h2 : b.getD (i + 1) 0 = b.get ⟨i + 1, by omega⟩ := by
    rw [List.getD_eq_getElem b 0 (show i + 1 < b.length by omega), List.get_eq_getElem]
  rw [h1, h2]

/-- Witness for `get_uint_spec`: the buffer [0x00, 0x2A] decoded at offset 0
yields 42. -/
theorem get_uint_spec_witness :
    0 + 2 ≤ ([0, 42] : Bytes).length ∧ get_uint [0, 42] 0 = some 42 :=
  ⟨by decide, (get_uint_spec ([0, 42] : Bytes) 0 (by decide)).trans (by decide)⟩

/-- C8 counterexample: a struct definition that does contain a field at
offset 0 ("0.0" of type Int) but whose size computation still fails, because
the field at the maximal key "2.0" has the array type "Int[2]", which
`get_type_size_` cannot resolve.  Failure is therefore not equivalent to the
absence of an offset-0 field. -/
theorem get_struct_size_fails_despite_base_field :
    (∃ k ∈ ([("0.0", ⟨"A", "Int"⟩), ("2.0", ⟨"B", "Int[2]"⟩)] : StructDef).map
        Prod.fst, convert_key k = some 0) ∧
    get_struct_size [("0.0", ⟨"A", "Int"⟩), ("2.0", ⟨"B", "Int[2]"⟩)] = none := by
  refine ⟨⟨"0.0", ?_, by decide⟩, rfl⟩
  decide

/-- C4 counterexample: decoding the struct definition with fields A ("0.0",
UInt) and B ("2.0", Struct) from a 4-byte buffer succeeds but produces a
record containing only A; the field B (a nested struct) is silently omitted
by the bare `pass` branch of `get_struct_values`. -/
theorem get_struct_values_omits_nested_struct :
    (get_struct_values ([0, 42, 0, 0] : Bytes) 0
        [("0.0", ⟨"A", "UInt"⟩), ("2.0", ⟨"B", "Struct"⟩)]).map
      (fun o => (o.hasKey "A", o.hasKey "B")) = some (true, false) := rfl

/-- C5 counterexample: for the struct definition with fields A ("0.0", UInt)
and B ("2.0", UInt) and the 2-byte buffer [0x00, 0x2A] (long enough for A,
too short for B), `get_struct_values` raises instead of returning a record
with A's value 42: the out-of-bounds read of B aborts the whole struct
decode, not just B's field. -/
theorem get_struct_values_oob_aborts_struct :
    get_struct_values ([0, 42] : Bytes) 0
      [("0.0", ⟨"A", "UInt"⟩), ("2.0", ⟨"B", "UInt"⟩)] = none := rfl

/-- C6 counterexample: flattening the record X containing a record-valued
entry A with scalar child B yields the flat key "XA_B": the recursion into a
dict-valued child uses prefix ++ name with no separator, so the emitted key
does not begin with "X_A". -/
theorem walk_nested_record_key_has_no_separator :
    walk (.vdict (.dcons "A" (.vdict (.dcons "B" (.vint 1) .dnil)) .dnil))
      "X" "_" = [("XA_B", PyVal.vint 1)] ∧
    ("X" ++ "_" ++ "A").data.isPrefixOf "XA_B".data = false := ⟨rfl, by decide⟩


/-! ### Order and parsing facts about offset keys -/

theorem strLtList_irrefl : ∀ a : List Char, strLtList a a = false
  | [] => rfl
  | c :: cs => by
    simp only [strLtList]
    rw [if_neg (by omega), if_neg (by omega)]
    exact strLtList_irrefl cs

theorem strLtList_trans : ∀ a b c : List Char,
    strLtList a b = true → strLtList b c = true → strLtList a c = true
  | [], [], _, h1, _ => by simp [strLtList] at h1
  | [], _ :: _, [], _, h2 => by simp [strLtList] at h2
  | [], _ :: _, _ :: _, _, _ => by simp [strLtList]
  | _ :: _, [], _, h1, _ => by simp [strLtList] at h1
  | _ :: _, _ :: _, [], _, h2 => by simp [strLtList] at h2
  | x :: xs, y :: ys, z :: zs, h1, h2 => by
    simp only [strLtList] at h1 h2 ⊢
    by_cases h1a : x.toNat < y.toNat
    · by_cases h2a : y.toNat < z.toNat
      · rw [if_pos (by omega)]
      · by_cases h2b : z.toNat < y.toNat
        · rw [if_neg h2a, if_pos h2b] at h2
          simp at h2
        · rw [if_pos (by omega)]
    · by_cases h1b : y.toNat < x.toNat
      · rw [if_neg h1a, if_pos h1b] at h1
        simp at h1
      · rw [if_neg h1a, if_neg h1b] at h1
        by_cases h2a : y.toNat < z.toNat
        · rw [if_pos (by omega)]
        · by_cases h2b : z.toNat < y.toNat
          · rw [if_neg h2a, if_pos h2b] at h2
            simp at h2
          · rw [if_neg h2a, if_neg h2b] at h2
            rw [if_neg (by omega), if_neg (by omega)]
            exact strLtList_trans xs ys zs h1 h2

theorem char_eq_of_toNat_eq {x y : Char} (h : x.toNat = y.toNat) : x = y := by
  have hx : Char.ofNat x.toNat = x := Char.ofNat_toNat x
  have hy : Char.ofNat y.toNat = y := Char.ofNat_toNat y
  rw [← hx, ← hy, h]

theorem strLtList_connex : ∀ a b : List Char,
    strLtList a b = false → strLtList b a = true ∨ a = b
  | [], [], _ => Or.inr rfl
  | [], _ :: _, h => by simp [strLtList] at h
  | _ :: _, [], _ => Or.inl (by simp [strLtList])
  | x :: xs, y :: ys, h => by
    simp only [strLtList] at h ⊢
    by_cases hxy : x.toNat < y.toNat
    · rw [if_pos hxy] at h
      simp at h
    · by_cases hyx : y.toNat < x.toNat
      · exact Or.inl (by rw [if_pos hyx])
      · rw [if_neg hxy, if_neg hyx] at h
        rcases strLtList_connex xs ys h with h2 | h2
        · refine Or.inl ?_
          rw [if_neg (by omega), if_neg (by omega)]
          exact h2
        · refine Or.inr ?_
          rw [char_eq_of_toNat_eq (by omega : x.toNat = y.toNat), h2]

theorem strLtB_trans {a b c : String} (h1 : strLtB a b = true)
    (h2 : strLtB b c = true) : strLtB a c = true :=
  strLtList_trans a.data b.data c.data h1 h2

theorem strLtB_irrefl (a : String) : strLtB a a = false :=
  strLtList_irrefl a.data

theorem strLtB_connex {a b : String} (h : strLtB a b = false) :
    strLtB b a = true ∨ a = b := by
  rcases strLtList_connex a.data b.data h with h2 | h2
  · exact Or.inl h2
  · exact Or.inr (String.ext h2)

theorem foldlMin_mem : ∀ (xs : List String) (x : String),
    xs.foldl (fun acc s => if strLtB s acc then s else acc) x ∈ x :: xs
  | [], x => List.mem_singleton.mpr rfl
  | s :: xs, x => by
    rw [List.foldl_cons]
    rcases List.mem_cons.mp (foldlMin_mem xs (if strLtB s x then s else x)) with h | h
    · rw [h]
      split_ifs
      · exact List.mem_cons_of_mem _ (List.mem_cons_self _ _)
      · exact List.mem_cons_self _ _
    · exact List.mem_cons_of_mem _ (List.mem_cons_of_mem _ h)

theorem foldlMax_mem : ∀ (xs : List String) (x : String),
    xs.foldl (fun acc s => if strLtB acc s then s else acc) x ∈ x :: xs
  | [], x => List.mem_singleton.mpr rfl
  | s :: xs, x => by
    rw [List.foldl_cons]
    rcases List.mem_cons.mp (foldlMax_mem xs (if strLtB x s then s else x)) with h | h
    · rw [h]
      split_ifs
      · exact List.mem_cons_of_mem _ (List.mem_cons_self _ _)
      · exact List.mem_cons_self _ _
    · exact List.mem_cons_of_mem _ (List.mem_cons_of_mem _ h)

theorem foldlMin_not_lt : ∀ (xs : List String) (x k : String), k ∈ x :: xs →
    strLtB k (xs.foldl (fun acc s => if strLtB s acc then s else acc) x) = false
  | [], x, k, hk => by
    rw [List.mem_singleton.mp hk]
    exact strLtB_irrefl x
  | s :: xs, x, k, hk => by
    rw [List.foldl_cons]
    by_cases hsx : strLtB s x = true
    · rw [if_pos hsx]
      rcases List.mem_cons.mp hk with hkx | hk2
      · rw [hkx]
        by_contra hcon
        rw [Bool.not_eq_false] at hcon
        have hres := foldlMin_not_lt xs s s (List.mem_cons_self _ _)
        rw [strLtB_trans hsx hcon] at hres
        simp at hres
      · exact foldlMin_not_lt xs s k hk2
    · rw [if_neg hsx]
      rcases List.mem_cons.mp hk with hkx | hk2
      · rw [hkx]
        exact foldlMin_not_lt xs x x (List.mem_cons_self _ _)
      · rcases List.mem_cons.mp hk2 with hks | hk3
        · rw [hks]
          by_contra hcon
          rw [Bool.not_eq_false] at hcon
          have hxm := foldlMin_not_lt xs x x (List.mem_cons_self _ _)
          have hsxf : strLtB s x = false := by
            rw [← Bool.not_eq_true]
            exact hsx
          rcases strLtB_connex hsxf with hxs | heq
          · rw [strLtB_trans hxs hcon] at hxm
            simp at hxm
          · rw [heq] at hcon
            rw [hcon] at hxm
            simp at hxm
        · exact foldlMin_not_lt xs x k (List.mem_cons_of_mem _ hk3)

theorem pyMin_exists (l : List String) (h : l ≠ []) :
    ∃ m, pyMin l = some m ∧ m ∈ l ∧ ∀ k ∈ l, strLtB k m = false := by
  match l with
  | [] => exact absurd rfl h
  | x :: xs =>
    exact ⟨_, rfl, foldlMin_mem xs x, fun k hk => foldlMin_not_lt xs x k hk⟩

theorem pyMax_exists (l : List String) (h : l ≠ []) :
    ∃ m, pyMax l = some m ∧ m ∈ l := by
  match l with
  | [] => exact absurd rfl h
  | x :: xs => exact ⟨_, rfl, foldlMax_mem xs x⟩

theorem splitOnCharList_ne_nil (c : Char) : ∀ l : List Char, splitOnCharList c l ≠ []
  | [] => by simp [splitOnCharList]
  | d :: rest => by
    have h := splitOnCharList_ne_nil c rest
    simp only [splitOnCharList]
    rcases hr : splitOnCharList c rest with _ | ⟨g, gs⟩
    · exact absurd hr h
    · split_ifs <;> simp

theorem splitOnCharList_noSep (c : Char) :
    ∀ l : List Char, (∀ d ∈ l, d ≠ c) → splitOnCharList c l = [l]
  | [], _ => rfl
  | d :: rest, h => by
    have ih := splitOnCharList_noSep c rest (fun e he => h e (List.mem_cons_of_mem _ he))
    simp [splitOnCharList, ih, h d (List.mem_cons_self _ _)]

theorem splitOnCharList_append (c : Char) :
    ∀ a b : List Char, (∀ d ∈ a, d ≠ c) →
      splitOnCharList c (a ++ c :: b) = a :: splitOnCharList c b
  | [], b, _ => by
    rcases hr : splitOnCharList c b with _ | ⟨g, gs⟩
    · exact absurd hr (splitOnCharList_ne_nil c b)
    · simp [splitOnCharList, hr]
  | d :: a2, b, h => by
    have ih := splitOnCharList_append c a2 b (fun e he => h e (List.mem_cons_of_mem _ he))
    simp [splitOnCharList, ih, h d (List.mem_cons_self _ _)]

theorem toNat_of_digit {d : Char} (h : isDigitChar d = true) :
    48 ≤ d.toNat ∧ d.toNat ≤ 57 := by
  simp only [isDigitChar, Bool.and_eq_true, decide_eq_true_eq] at h
  exact h

theorem isDigit_ne_dot {d : Char} (h : isDigitChar d = true) : d ≠ '.' := by
  intro hd
  rw [hd] at h
  simp [isDigitChar] at h

theorem convert_key_wf {k : String} (h : WellFormedKey k) :
    ∃ a b : List Char, k.data = a ++ '.' :: b ∧ a ≠ [] ∧ a.all isDigitChar ∧
      (a.head? = some '0' → a = ['0']) ∧ convert_key k = some (digitsToNat a) := by
  obtain ⟨a, b, hk, hane, hbne, hadig, hbdig, hhead⟩ := h
  refine ⟨a, b, hk, hane, hadig, hhead, ?_⟩
  have hsplit : splitOnStr '.' k = [⟨a⟩, ⟨b⟩] := by
    simp only [splitOnStr, hk]
    rw [splitOnCharList_append '.' a b
      (fun d hd => isDigit_ne_dot (List.all_eq_true.mp hadig d hd))]
    rw [splitOnCharList_noSep '.' b
      (fun d hd => isDigit_ne_dot (List.all_eq_true.mp hbdig d hd))]
    rfl
  simp only [convert_key, hsplit]
  rw [if_pos ⟨Or.inl (by simpa using hane), by simpa using hadig, by simpa using hbdig⟩]

theorem digitsToNat_ge_seed : ∀ (l : List Char) (seed : Nat),
    seed ≤ l.foldl (fun a c => 10 * a + (c.toNat - 48)) seed
  | [], _ => le_refl _
  | c :: l, seed => by
    rw [List.foldl_cons]
    exact le_trans (by omega) (digitsToNat_ge_seed l (10 * seed + (c.toNat - 48)))

theorem digitsToNat_zero_head {a : List Char} (hane : a ≠ [])
    (hadig : a.all isDigitChar) (h : digitsToNat a = 0) : a.head? = some '0' := by
  match a, hane with
  | d :: rest, _ =>
    have hd : isDigitChar d = true := List.all_eq_true.mp hadig d (List.mem_cons_self _ _)
    have hge : d.toNat - 48 ≤ digitsToNat (d :: rest) := by
      simp only [digitsToNat, List.foldl_cons]
      exact le_trans (by omega) (digitsToNat_ge_seed rest (10 * 0 + (d.toNat - 48)))
    have hdig := toNat_of_digit hd
    have h48 : ('0' : Char).toNat = 48 := rfl
    have hd0 : d = '0' := char_eq_of_toNat_eq (by omega)
    simp [hd0]

theorem convert_key_zero_of_min {l : List String} {mn k0 : String}
    (hwf : ∀ k ∈ l, WellFormedKey k) (hmn : mn ∈ l)
    (hmnmin : ∀ k ∈ l, strLtB k mn = false)
    (hk0 : k0 ∈ l) (h0 : convert_key k0 = some 0) :
    convert_key mn = some 0 := by
  obtain ⟨a0, b0, hk0d, ha0ne, ha0dig, ha0head, hck0⟩ := convert_key_wf (hwf k0 hk0)
  obtain ⟨am, bm, hmd, hamne, hamdig, hamhead, hckm⟩ := convert_key_wf (hwf mn hmn)
  rw [hck0] at h0
  have hz0 : digitsToNat a0 = 0 := by simpa using h0
  have hhead0 : a0.head? = some '0' := digitsToNat_zero_head ha0ne ha0dig hz0
  have ha0 : a0 = ['0'] := ha0head hhead0
  match am, hamne with
  | c :: am2, _ =>
    have hcm : isDigitChar c = true :=
      List.all_eq_true.mp hamdig c (List.mem_cons_self _ _)
    have hcge := toNat_of_digit hcm
    have h48 : ('0' : Char).toNat = 48 := rfl
    have hle : c.toNat ≤ 48 := by
      by_contra hgt
      have hlt : strLtB k0 mn = true := by
        simp only [strLtB, hk0d, hmd, ha0]
        show strLtList ('0' :: ('.' :: b0)) ((c :: am2) ++ '.' :: bm) = true
        simp only [List.cons_append, strLtList]
        rw [if_pos (by omega)]
      rw [hmnmin k0 hk0] at hlt
      simp at hlt
    have hc0 : c = '0' := char_eq_of_toNat_eq (by omega)
    have ham : c :: am2 = ['0'] := hamhead (by simp [hc0])
    rw [hckm, ham]
    rfl

theorem find?_key : ∀ (d : StructDef) (mx : String), mx ∈ d.map Prod.fst →
    ∃ p, d.find? (fun q => q.1 = mx) = some p ∧ p ∈ d ∧ p.1 = mx
  | [], mx, h => absurd h (by simp)
  | (k, f) :: dt, mx, h => by
    by_cases hk : k = mx
    · refine ⟨(k, f), ?_, List.mem_cons_self _ _, hk⟩
      rw [List.find?_cons_of_pos _ (by simpa using hk)]
    · have hmem : mx ∈ dt.map Prod.fst := by
        rcases List.mem_cons.mp h with h2 | h2
        · exact absurd h2.symm hk
        · exact h2
      obtain ⟨p, hp, hpmem, hpk⟩ := find?_key dt mx hmem
      refine ⟨p, ?_, List.mem_cons_of_mem _ hpmem, hpk⟩
      rw [List.find?_cons_of_neg _ (by simpa using hk), hp]

/-- C8 (amended): for a nonempty struct definition with canonical offset keys
whose field types all resolve in the scalar table, `get_struct_size` fails
iff no offset key maps to byte position 0.  (Without the scalar-type
restriction the equivalence is false: see the counterexample where the field
at the maximal key has an array type.) -/
theorem get_struct_size_none_iff (d : StructDef) (hne : d ≠ [])
    (hwf : ∀ k ∈ d.map Prod.fst, WellFormedKey k)
    (hscalar : ∀ p ∈ d, (get_type_size_ p.2.type).isSome = true) :
    (get_struct_size d = none ↔ ¬ ∃ k ∈ d.map Prod.fst, convert_key k = some 0) := by
  have hksne : d.map Prod.fst ≠ [] := by
    intro h
    exact hne (List.map_eq_nil_iff.mp h)
  obtain ⟨mn, hmn, hmnmem, hmnmin⟩ := pyMin_exists _ hksne
  obtain ⟨mx, hmx, hmxmem⟩ := pyMax_exists _ hksne
  simp only [get_struct_size, hmn, hmx]
  by_cases h0 : convert_key mn = some 0
  · rw [if_neg (by simp [h0])]
    obtain ⟨p, hp, hpmem, hpk⟩ := find?_key d mx hmxmem
    obtain ⟨amx, bmx, hkd, hane, hadig, hahead, hck⟩ := convert_key_wf (hwf mx hmxmem)
    rw [hp, hck]
    show (get_type_size_ p.2.type).map (fun sz => digitsToNat amx + sz) = none ↔ _
    obtain ⟨w, hw⟩ := Option.isSome_iff_exists.mp (hscalar p hpmem)
    rw [hw]
    simp only [Option.map_some']
    constructor
    · intro hcon
      exact absurd hcon (by simp)
    · intro hcon
      exact absurd ⟨mn, hmnmem, h0⟩ hcon
  · rw [if_pos (by simp [h0])]
    constructor
    · intro _
      rintro ⟨k0, hk0mem, hk0⟩
      exact h0 (convert_key_zero_of_min hwf hmnmem hmnmin hk0mem hk0)
    · intro _
      rfl

/-- Witness for `get_struct_size_none_iff` at the one-field definition with
key "0.0" and type Int. -/
theorem get_struct_size_none_iff_witness :
    (([( "0.0", ⟨"A", "Int"⟩)] : StructDef) ≠ [] ∧
      (∀ k ∈ ([("0.0", ⟨"A", "Int"⟩)] : StructDef).map Prod.fst, WellFormedKey k) ∧
      (∀ p ∈ ([("0.0", ⟨"A", "Int"⟩)] : StructDef),
        (get_type_size_ p.2.type).isSome = true)) ∧
    (get_struct_size [("0.0", ⟨"A", "Int"⟩)] = none ↔
      ¬ ∃ k ∈ ([("0.0", ⟨"A", "Int"⟩)] : StructDef).map Prod.fst,
        convert_key k = some 0) := by
  have hwf : ∀ k ∈ ([("0.0", ⟨"A", "Int"⟩)] : StructDef).map Prod.fst,
      WellFormedKey k := by
    intro k hk
    have hk2 : k = "0.0" := by simpa using hk
    rw [hk2]
    exact ⟨['0'], ['0'], rfl, by decide, by decide, by decide, by decide,
      fun _ => rfl⟩
  refine ⟨⟨by simp, hwf, by decide⟩, ?_⟩
  exact get_struct_size_none_iff _ (by simp) hwf (by decide)


/-! ### Error propagation inside the struct decoder -/

theorem get_struct_values_aux_oob :
    ∀ (d : StructDef) (b : Bytes) (byte_index : Nat) (o : PyDict),
    (∃ p ∈ d, ∃ sbi bix, get_byte_and_bool_index p.1 = some (sbi, bix) ∧
      normType p.2.type = "uint" ∧ b.length < byte_index + sbi + 2) →
    get_struct_values_aux b byte_index d o = none
  | [], _, _, _, h => by
    obtain ⟨p, hp, _⟩ := h
    exact absurd hp (List.not_mem_nil p)
  | (k, f) :: rest, b, byte_index, o, h => by
    obtain ⟨p, hp, sbi, bix, hparse, htype, hlen⟩ := h
    rcases List.mem_cons.mp hp with hpk | hprest
    · rw [hpk] at hparse htype
      simp only at hparse htype
      have hpf : processField b byte_index k f o = none := by
        simp only [processField, hparse, htype]
        rw [if_pos (by decide)]
        rw [show get_value_ b (byte_index + sbi) "uint" (some bix) 254 =
          (get_uint b (byte_index + sbi)).map (fun n => PyVal.vint n) from rfl]
        simp only [get_uint]
        rw [if_neg (by omega)]
        rfl
      simp only [get_struct_values_aux, hpf]
    · cases hpf : processField b byte_index k f o with
      | none => simp only [get_struct_values_aux, hpf]
      | some o2 =>
        simp only [get_struct_values_aux, hpf]
        exact get_struct_values_aux_oob rest b byte_index o2
          ⟨p, hprest, sbi, bix, hparse, htype, hlen⟩

/-- C5 (amended): a field read whose byte range exceeds the buffer aborts the
whole struct decode: whenever some field of the definition is a (normalised)
"uint" whose two required bytes are not within the buffer,
`get_struct_values` raises, returning no record at all, so sibling fields
are lost rather than decoded independently. -/
theorem get_struct_values_oob_none (b : Bytes) (byte_index : Nat) (d : StructDef)
    (h : ∃ p ∈ d, ∃ sbi bix, get_byte_and_bool_index p.1 = some (sbi, bix) ∧
      normType p.2.type = "uint" ∧ b.length < byte_index + sbi + 2) :
    get_struct_values b byte_index d = none :=
  get_struct_values_aux_oob d b byte_index .dnil h

/-- Witness for `get_struct_values_oob_none`: the two-field definition A
("0.0", UInt), B ("2.0", UInt) on the 2-byte buffer [0x00, 0x2A]. -/
theorem get_struct_values_oob_none_witness :
    (∃ p ∈ ([("0.0", ⟨"A", "UInt"⟩), ("2.0", ⟨"B", "UInt"⟩)] : StructDef),
      ∃ sbi bix, get_byte_and_bool_index p.1 = some (sbi, bix) ∧
        normType p.2.type = "uint" ∧
        ([0, 42] : Bytes).length < 0 + sbi + 2) ∧
    get_struct_values ([0, 42] : Bytes) 0
      [("0.0", ⟨"A", "UInt"⟩), ("2.0", ⟨"B", "UInt"⟩)] = none := by
  have hh : ∃ p ∈ ([("0.0", ⟨"A", "UInt"⟩), ("2.0", ⟨"B", "UInt"⟩)] : StructDef),
      ∃ sbi bix, get_byte_and_bool_index p.1 = some (sbi, bix) ∧
        normType p.2.type = "uint" ∧
        ([0, 42] : Bytes).length < 0 + sbi + 2 :=
    ⟨("2.0", ⟨"B", "UInt"⟩),
      List.mem_cons_of_mem _ (List.mem_cons_self _ _), 2, 0, rfl, rfl, by decide⟩
  exact ⟨hh, get_struct_values_oob_none _ _ _ hh⟩


/-! ### Coverage of the struct decoder over table scalars -/

theorem hasKey_dictSet_self : ∀ (o : PyDict) (k : String) (v : PyVal),
    (dictSet o k v).hasKey k = true
  | .dnil, k, v => by simp [dictSet, PyDict.hasKey]
  | .dcons k2 w t, k, v => by
    by_cases h : k2 = k
    · simp [dictSet, h, PyDict.hasKey]
    · simp only [dictSet, if_neg h, PyDict.hasKey, Bool.or_eq_true, beq_iff_eq]
      exact Or.inr (hasKey_dictSet_self t k v)

theorem hasKey_dictSet_mono : ∀ (o : PyDict) (k k2 : String) (v : PyVal),
    o.hasKey k2 = true → (dictSet o k v).hasKey k2 = true
  | .dnil, _, _, _, h => by simp [PyDict.hasKey] at h
  | .dcons k3 w t, k, k2, v, h => by
    simp only [PyDict.hasKey, Bool.or_eq_true, beq_iff_eq] at h
    by_cases h3 : k3 = k
    · simp only [dictSet, if_pos h3, PyDict.hasKey, Bool.or_eq_true, beq_iff_eq]
      exact h.imp id id
    · simp only [dictSet, if_neg h3, PyDict.hasKey, Bool.or_eq_true, beq_iff_eq]
      rcases h with h | h
      · exact Or.inl h
      · exact Or.inr (hasKey_dictSet_mono t k k2 v h)

theorem pySlice_length_of_le (b : Bytes) (i w : Nat) (h : i + w ≤ b.length) :
    (pySlice b i (i + w)).length = w := by
  simp only [pySlice, List.length_drop, List.length_take]
  omega

theorem get_value_scalar_isSome (b : Bytes) (i : Nat) (s : String) (bix : Nat)
    (w : Nat) (hw : type_size_map (normType s) = some w) (hlen : i + w ≤ b.length) :
    (get_value_ b i s (some bix) 254).isSome = true := by
  by_cases h1 : normType s = "bool"
  · have hww : (some 1 : Option Nat) = some w := by
      rw [h1] at hw
      exact hw
    injection hww with hv
    rw [show get_value_ b i s (some bix) 254
        = dispatch_value b i (normType s) (some bix) 254 from rfl, h1]
    show ((get_bool b i bix).map PyVal.vbool).isSome = true
    simp only [get_bool]
    rw [if_pos (by omega)]
    rfl
  by_cases h2 : normType s = "byte"
  · have hww : (some 1 : Option Nat) = some w := by
      rw [h2] at hw
      exact hw
    injection hww with hv
    rw [show get_value_ b i s (some bix) 254
        = dispatch_value b i (normType s) (some bix) 254 from rfl, h2]
    show ((get_byte_ b i).map (fun n => PyVal.vint n)).isSome = true
    simp only [get_byte_]
    rw [if_pos (by omega)]
    rfl
  by_cases h3 : normType s = "char"
  · have hww : (some 1 : Option Nat) = some w := by
      rw [h3] at hw
      exact hw
    injection hww with hv
    rw [show get_value_ b i s (some bix) 254
        = dispatch_value b i (normType s) (some bix) 254 from rfl, h3]
    show (get_char_ b i).isSome = true
    simp only [get_char_]
    rw [if_pos (by omega)]
    rfl
  by_cases h4 : normType s = "word"
  · have hww : (some 2 : Option Nat) = some w := by
      rw [h4] at hw
      exact hw
    injection hww with hv
    rw [show get_value_ b i s (some bix) 254
        = dispatch_value b i (normType s) (some bix) 254 from rfl, h4]
    show ((get_word b i).map (fun n => PyVal.vint n)).isSome = true
    simp only [get_word]
    rw [if_pos (by omega)]
    rfl
  by_cases h5 : normType s = "dword"
  · have hww : (some 4 : Option Nat) = some w := by
      rw [h5] at hw
      exact hw
    injection hww with hv
    rw [show get_value_ b i s (some bix) 254
        = dispatch_value b i (normType s) (some bix) 254 from rfl, h5]
    show ((get_dword b i).map (fun n => PyVal.vint n)).isSome = true
    simp only [get_dword]
    rw [if_pos (by omega)]
    rfl
  by_cases h6 : normType s = "usint"
  · have hww : (some 1 : Option Nat) = some w := by
      rw [h6] at hw
      exact hw
    injection hww with hv
    rw [show get_value_ b i s (some bix) 254
        = dispatch_value b i (normType s) (some bix) 254 from rfl, h6]
    show ((get_usint b i).map (fun n => PyVal.vint n)).isSome = true
    simp only [get_usint]
    rw [if_pos (by omega)]
    rfl
  by_cases h7 : normType s = "uint"
  · have hww : (some 2 : Option Nat) = some w := by
      rw [h7] at hw
      exact hw
    injection hww with hv
    rw [show get_value_ b i s (some bix) 254
        = dispatch_value b i (normType s) (some bix) 254 from rfl, h7]
    show ((get_uint b i).map (fun n => PyVal.vint n)).isSome = true
    simp only [get_uint]
    rw [if_pos (by omega)]
    rfl
  by_cases h8 : normType s = "udint"
  · have hww : (some 4 : Option Nat) = some w := by
      rw [h8] at hw
      exact hw
    injection hww with hv
    rw [show get_value_ b i s (some bix) 254
        = dispatch_value b i (normType s) (some bix) 254 from rfl, h8]
    show ((get_udint b i).map (fun n => PyVal.vint n)).isSome = true
    simp only [get_udint]
    rw [if_pos (by omega)]
    rfl
  by_cases h9 : normType s = "ulint"
  · have hww : (some 8 : Option Nat) = some w := by
      rw [h9] at hw
      exact hw
    injection hww with hv
    rw [show get_value_ b i s (some bix) 254
        = dispatch_value b i (normType s) (some bix) 254 from rfl, h9]
    show ((get_ulint b i).map (fun n => PyVal.vint n)).isSome = true
    simp only [get_ulint]
    rw [if_pos (by omega)]
    rfl
  by_cases h10 : normType s = "sint"
  · have hww : (some 1 : Option Nat) = some w := by
      rw [h10] at hw
      exact hw
    injection hww with hv
    rw [show get_value_ b i s (some bix) 254
        = dispatch_value b i (normType s) (some bix) 254 from rfl, h10]
    show ((get_sint b i).map PyVal.vint).isSome = true
    simp only [get_sint]
    rw [if_pos (by omega)]
    rfl
  by_cases h11 : normType s = "int"
  · have hww : (some 2 : Option Nat) = some w := by
      rw [h11] at hw
      exact hw
    injection hww with hv
    rw [show get_value_ b i s (some bix) 254
        = dispatch_value b i (normType s) (some bix) 254 from rfl, h11]
    show ((get_int b i).map PyVal.vint).isSome = true
    simp only [get_int]
    rw [if_pos (by omega)]
    rfl
  by_cases h12 : normType s = "dint"
  · have hww : (some 4 : Option Nat) = some w := by
      rw [h12] at hw
      exact hw
    injection hww with hv
    rw [show get_value_ b i s (some bix) 254
        = dispatch_value b i (normType s) (some bix) 254 from rfl, h12]
    show ((get_dint b i).map PyVal.vint).isSome = true
    simp only [get_dint]
    rw [if_pos (by omega)]
    rfl
  by_cases h13 : normType s = "lint"
  · have hww : (some 8 : Option Nat) = some w := by
      rw [h13] at hw
      exact hw
    injection hww with hv
    rw [show get_value_ b i s (some bix) 254
        = dispatch_value b i (normType s) (some bix) 254 from rfl, h13]
    show ((get_lint b i).map PyVal.vint).isSome = true
    simp only [get_lint]
    rw [if_pos (by omega)]
    rfl
  by_cases h14 : normType s = "real"
  · have hww : (some 4 : Option Nat) = some w := by
      rw [h14] at hw
      exact hw
    injection hww with hv
    rw [show get_value_ b i s (some bix) 254
        = dispatch_value b i (normType s) (some bix) 254 from rfl, h14]
    show (get_real b i).isSome = true
    simp only [get_real]
    rw [if_pos (by omega)]
    rfl
  by_cases h15 : normType s = "lreal"
  · have hww : (some 8 : Option Nat) = some w := by
      rw [h15] at hw
      exact hw
    injection hww with hv
    rw [show get_value_ b i s (some bix) 254
        = dispatch_value b i (normType s) (some bix) 254 from rfl, h15]
    show (get_lreal b i).isSome = true
    simp only [get_lreal]
    rw [if_pos (pySlice_length_of_le b i 8 (by omega))]
    rfl
  by_cases h16 : normType s = "string"
  · have hww : (some 256 : Option Nat) = some w := by
      rw [h16] at hw
      exact hw
    injection hww with hv
    rw [show get_value_ b i s (some bix) 254
        = dispatch_value b i (normType s) (some bix) 254 from rfl, h16]
    show ((get_string b i 254).map PyVal.vstr).isSome = true
    simp only [get_string]
    rw [if_pos (by omega)]
    rfl
  by_cases h17 : normType s = "time"
  · have hww : (some 4 : Option Nat) = some w := by
      rw [h17] at hw
      exact hw
    injection hww with hv
    rw [show get_value_ b i s (some bix) 254
        = dispatch_value b i (normType s) (some bix) 254 from rfl, h17]
    show ((get_dint b i).map PyVal.vint).isSome = true
    simp only [get_dint]
    rw [if_pos (by omega)]
    rfl
  by_cases h18 : normType s = "ltime"
  · have hww : (some 8 : Option Nat) = some w := by
      rw [h18] at hw
      exact hw
    injection hww with hv
    rw [show get_value_ b i s (some bix) 254
        = dispatch_value b i (normType s) (some bix) 254 from rfl, h18]
    show ((get_lint b i).map PyVal.vint).isSome = true
    simp only [get_lint]
    rw [if_pos (by omega)]
    rfl
  by_cases h19 : normType s = "date_and_time"
  · have hww : (some 8 : Option Nat) = some w := by
      rw [h19] at hw
      exact hw
    injection hww with hv
    rw [show get_value_ b i s (some bix) 254
        = dispatch_value b i (normType s) (some bix) 254 from rfl, h19]
    show (get_dt b i).isSome = true
    simp only [get_dt]
    rw [if_pos (by omega)]
    rfl
  exfalso
  simp only [type_size_map] at hw
  rw [if_neg h1, if_neg h2, if_neg h3, if_neg h4, if_neg h5, if_neg h6, if_neg h7, if_neg h8, if_neg h9, if_neg h10, if_neg h11, if_neg h12, if_neg h13, if_neg h14, if_neg h15, if_neg h16, if_neg h17, if_neg h18, if_neg h19] at hw
  exact absurd hw (by simp)

theorem normType_of_table {t : String} {w : Nat}
    (h : type_size_map t = some w) : normType t = t := by
  by_cases h1 : t = "bool"
  · rw [h1]
    rfl
  by_cases h2 : t = "byte"
  · rw [h2]
    rfl
  by_cases h3 : t = "char"
  · rw [h3]
    rfl
  by_cases h4 : t = "word"
  · rw [h4]
    rfl
  by_cases h5 : t = "dword"
  · rw [h5]
    rfl
  by_cases h6 : t = "usint"
  · rw [h6]
    rfl
  by_cases h7 : t = "uint"
  · rw [h7]
    rfl
  by_cases h8 : t = "udint"
  · rw [h8]
    rfl
  by_cases h9 : t = "ulint"
  · rw [h9]
    rfl
  by_cases h10 : t = "sint"
  · rw [h10]
    rfl
  by_cases h11 : t = "int"
  · rw [h11]
    rfl
  by_cases h12 : t = "dint"
  · rw [h12]
    rfl
  by_cases h13 : t = "lint"
  · rw [h13]
    rfl
  by_cases h14 : t = "real"
  · rw [h14]
    rfl
  by_cases h15 : t = "lreal"
  · rw [h15]
    rfl
  by_cases h16 : t = "string"
  · rw [h16]
    rfl
  by_cases h17 : t = "time"
  · rw [h17]
    rfl
  by_cases h18 : t = "ltime"
  · rw [h18]
    rfl
  by_cases h19 : t = "date_and_time"
  · rw [h19]
    rfl
  exfalso
  simp only [type_size_map] at h
  rw [if_neg h1, if_neg h2, if_neg h3, if_neg h4, if_neg h5, if_neg h6, if_neg h7, if_neg h8, if_neg h9, if_neg h10, if_neg h11, if_neg h12, if_neg h13, if_neg h14, if_neg h15, if_neg h16, if_neg h17, if_neg h18, if_neg h19] at h
  exact absurd h (by simp)

theorem get_struct_values_aux_present :
    ∀ (d : StructDef) (b : Bytes) (byte_index : Nat) (o : PyDict),
    (∀ p ∈ d, ∃ sbi bix, get_byte_and_bool_index p.1 = some (sbi, bix) ∧
      ((∃ w, type_size_map (normType p.2.type) = some w ∧
          byte_index + sbi + w ≤ b.length) ∨ normType p.2.type = "struct")) →
    ∃ o2, get_struct_values_aux b byte_index d o = some o2 ∧
      (∀ k2, o.hasKey k2 = true → o2.hasKey k2 = true) ∧
      (∀ p ∈ d, (type_size_map (normType p.2.type)).isSome = true →
        o2.hasKey p.2.name = true)
  | [], _, _, o, _ =>
    ⟨o, rfl, fun _ h => h, fun p hp => absurd hp (List.not_mem_nil p)⟩
  | (k, f) :: rest, b, byte_index, o, h => by
    obtain ⟨sbi, bix, hparse, hcase⟩ := h (k, f) (List.mem_cons_self _ _)
    simp only at hparse hcase
    rcases hcase with ⟨w, hw, hlen⟩ | hstruct
    · have hw2 : type_size_map (normType (normType f.type)) = some w := by
        rw [normType_of_table hw]
        exact hw
      obtain ⟨v, hv⟩ := Option.isSome_iff_exists.mp
        (get_value_scalar_isSome b (byte_index + sbi) (normType f.type) bix w hw2 hlen)
      have hpf : processField b byte_index k f o = some (dictSet o f.name v) := by
        simp only [processField, hparse]
        rw [if_pos (by rw [hw]; rfl)]
        rw [hv]
        rfl
      obtain ⟨o2, ho2, hmono, hpres⟩ := get_struct_values_aux_present rest b
        byte_index (dictSet o f.name v)
        (fun p hp => h p (List.mem_cons_of_mem _ hp))
      refine ⟨o2, ?_, ?_, ?_⟩
      · simp only [get_struct_values_aux, hpf]
        exact ho2
      · intro k2 hk2
        exact hmono k2 (hasKey_dictSet_mono o f.name k2 v hk2)
      · intro p hp hps
        rcases List.mem_cons.mp hp with hpk | hprest
        · rw [hpk]
          exact hmono f.name (hasKey_dictSet_self o f.name v)
        · exact hpres p hprest hps
    · have hpf : processField b byte_index k f o = some o := by
        simp only [processField, hparse, hstruct]
        rfl
      obtain ⟨o2, ho2, hmono, hpres⟩ := get_struct_values_aux_present rest b
        byte_index o (fun p hp => h p (List.mem_cons_of_mem _ hp))
      refine ⟨o2, ?_, hmono, ?_⟩
      · simp only [get_struct_values_aux, hpf]
        exact ho2
      · intro p hp hps
        rcases List.mem_cons.mp hp with hpk | hprest
        · rw [hpk] at hps
          simp only at hps
          rw [hstruct] at hps
          simp [type_size_map] at hps
        · exact hpres p hprest hps

/-- C4 (amended): decoding a struct definition whose fields all either have
a table-scalar type covered by the buffer or the (skipped) type "struct"
succeeds, and the resulting record has an entry under the name of every
table-scalar field; fields of type "struct" contribute nothing (see the
counterexample). -/
theorem get_struct_values_scalar_fields_present (b : Bytes) (byte_index : Nat)
    (d : StructDef)
    (h : ∀ p ∈ d, ∃ sbi bix, get_byte_and_bool_index p.1 = some (sbi, bix) ∧
      ((∃ w, type_size_map (normType p.2.type) = some w ∧
          byte_index + sbi + w ≤ b.length) ∨ normType p.2.type = "struct")) :
    ∃ o, get_struct_values b byte_index d = some o ∧
      ∀ p ∈ d, (type_size_map (normType p.2.type)).isSome = true →
        o.hasKey p.2.name = true := by
  obtain ⟨o2, ho2, _, hpres⟩ := get_struct_values_aux_present d b byte_index .dnil h
  exact ⟨o2, ho2, hpres⟩

/-- Witness for `get_struct_values_scalar_fields_present` at the one-field
definition A ("0.0", UInt) on the buffer [0x00, 0x2A]. -/
theorem get_struct_values_scalar_fields_present_witness :
    (∀ p ∈ ([("0.0", ⟨"A", "UInt"⟩)] : StructDef), ∃ sbi bix,
        get_byte_and_bool_index p.1 = some (sbi, bix) ∧
        ((∃ w, type_size_map (normType p.2.type) = some w ∧
            0 + sbi + w ≤ ([0, 42] : Bytes).length) ∨
          normType p.2.type = "struct")) ∧
    (∃ o, get_struct_values ([0, 42] : Bytes) 0 [("0.0", ⟨"A", "UInt"⟩)] = some o ∧
      ∀ p ∈ ([("0.0", ⟨"A", "UInt"⟩)] : StructDef),
        (type_size_map (normType p.2.type)).isSome = true →
          o.hasKey p.2.name = true) := by
  have hh : ∀ p ∈ ([("0.0", ⟨"A", "UInt"⟩)] : StructDef), ∃ sbi bix,
      get_byte_and_bool_index p.1 = some (sbi, bix) ∧
      ((∃ w, type_size_map (normType p.2.type) = some w ∧
          0 + sbi + w ≤ ([0, 42] : Bytes).length) ∨
        normType p.2.type = "struct") := by
    intro p hp
    rw [List.mem_singleton.mp hp]
    exact ⟨0, 0, rfl, Or.inl ⟨2, rfl, by decide⟩⟩
  exact ⟨hh, get_struct_values_scalar_fields_present _ _ _ hh⟩


/-! ### Prefix structure of the flattener output -/

mutual

theorem walk_key_extends : ∀ (v : PyVal) (pre sep : String) (q : String × PyVal),
    q ∈ walk v pre sep → ∃ t, q.1 = pre ++ t
  | .vdict d, pre, sep, q, hq => by
    rw [walk.eq_def] at hq
    exact walkDict_key_extends d pre sep q hq
  | .vlist l, pre, sep, q, hq => by
    rw [walk.eq_def] at hq
    obtain ⟨t, ht⟩ := walkListFrom_key_extends l 0 (pre ++ sep) q hq
    exact ⟨sep ++ t, by rw [ht, String.append_assoc]⟩
  | .vnone, pre, sep, q, hq => by
    rw [walk.eq_def] at hq
    rw [List.mem_singleton.mp hq]
    exact ⟨"", (String.append_empty pre).symm⟩
  | .vbool c, pre, sep, q, hq => by
    rw [walk.eq_def] at hq
    rw [List.mem_singleton.mp hq]
    exact ⟨"", (String.append_empty pre).symm⟩
  | .vint n, pre, sep, q, hq => by
    rw [walk.eq_def] at hq
    rw [List.mem_singleton.mp hq]
    exact ⟨"", (String.append_empty pre).symm⟩
  | .vstr s, pre, sep, q, hq => by
    rw [walk.eq_def] at hq
    rw [List.mem_singleton.mp hq]
    exact ⟨"", (String.append_empty pre).symm⟩
  | .vbytes bs, pre, sep, q, hq => by
    rw [walk.eq_def] at hq
    rw [List.mem_singleton.mp hq]
    exact ⟨"", (String.append_empty pre).symm⟩
  | .vraw tag bs, pre, sep, q, hq => by
    rw [walk.eq_def] at hq
    rw [List.mem_singleton.mp hq]
    exact ⟨"", (String.append_empty pre).symm⟩

theorem walkDict_key_extends : ∀ (d : PyDict) (pre sep : String) (q : String × PyVal),
    q ∈ walkDict d pre sep → ∃ t, q.1 = pre ++ t
  | .dnil, _, _, q, hq => by
    rw [walkDict.eq_def] at hq
    exact absurd hq (List.not_mem_nil q)
  | .dcons k v t, pre, sep, q, hq => by
    rw [walkDict.eq_def] at hq
    rcases List.mem_append.mp hq with h | h
    · match v, h with
      | .vdict d2, h =>
        obtain ⟨u, hu⟩ := walkDict_key_extends d2 (pre ++ k) "_" q h
        exact ⟨k ++ u, by rw [hu, String.append_assoc]⟩
      | .vlist l, h =>
        obtain ⟨u, hu⟩ := walkListFrom_key_extends l 0 (pre ++ sep ++ k ++ sep) q h
        refine ⟨sep ++ (k ++ (sep ++ u)), ?_⟩
        rw [hu, String.append_assoc, String.append_assoc, String.append_assoc]
      | .vnone, h =>
        rw [List.mem_singleton.mp h]
        exact ⟨sep ++ k, by rw [String.append_assoc]⟩
      | .vbool c, h =>
        rw [List.mem_singleton.mp h]
        exact ⟨sep ++ k, by rw [String.append_assoc]⟩
      | .vint n, h =>
        rw [List.mem_singleton.mp h]
        exact ⟨sep ++ k, by rw [String.append_assoc]⟩
      | .vstr s, h =>
        rw [List.mem_singleton.mp h]
        exact ⟨sep ++ k, by rw [String.append_assoc]⟩
      | .vbytes bs, h =>
        rw [List.mem_singleton.mp h]
        exact ⟨sep ++ k, by rw [String.append_assoc]⟩
      | .vraw tag bs, h =>
        rw [List.mem_singleton.mp h]
        exact ⟨sep ++ k, by rw [String.append_assoc]⟩
    · exact walkDict_key_extends t pre sep q h

theorem walkListFrom_key_extends :
    ∀ (l : PyList) (i : Nat) (base : String) (q : String × PyVal),
    q ∈ walkListFrom l i base → ∃ t, q.1 = base ++ t
  | .nil, _, _, q, hq => by
    rw [walkListFrom.eq_def] at hq
    exact absurd hq (List.not_mem_nil q)
  | .cons v t, i, base, q, hq => by
    rw [walkListFrom.eq_def] at hq
    rcases List.mem_append.mp hq with h | h
    · obtain ⟨u, hu⟩ := walk_key_extends v (base ++ toString i) "_" q h
      exact ⟨toString i ++ u, by rw [hu, String.append_assoc]⟩
    · exact walkListFrom_key_extends t (i + 1) base q h

end

theorem walkDict_mem_of_entry :
    ∀ (d : PyDict) (pre sep name : String) (inner : PyDict),
    (name, PyVal.vdict inner) ∈ d.entries →
    ∀ q ∈ walkDict inner (pre ++ name) "_", q ∈ walkDict d pre sep
  | .dnil, _, _, _, _, h, q, hq => absurd h (List.not_mem_nil _)
  | .dcons k v t, pre, sep, name, inner, h, q, hq => by
    rw [walkDict.eq_def]
    rcases List.mem_cons.mp h with heq | h2
    · have hk : name = k := congrArg Prod.fst heq
      have hv : PyVal.vdict inner = v := congrArg Prod.snd heq
      subst hk
      rw [← hv]
      exact List.mem_append_left _ hq
    · exact List.mem_append_right _
        (walkDict_mem_of_entry t pre sep name inner h2 q hq)

/-- C6 (amended): the flattener recurses into a record-valued child
(name, child) with the new prefix equal to prefix ++ name, with no separator
in between: every pair emitted for such a child appears in the parent's
flattening, and its flat key begins with prefix ++ name. -/
theorem walk_record_child_keys (d : PyDict) (pre sep name : String)
    (inner : PyDict) (hmem : (name, PyVal.vdict inner) ∈ d.entries) :
    ∀ q ∈ walk (PyVal.vdict inner) (pre ++ name) "_",
      q ∈ walk (PyVal.vdict d) pre sep ∧ ∃ t, q.1 = (pre ++ name) ++ t := by
  intro q hq
  rw [walk.eq_def] at hq
  refine ⟨?_, walkDict_key_extends inner (pre ++ name) "_" q hq⟩
  rw [walk.eq_def]
  exact walkDict_mem_of_entry d pre sep name inner hmem q hq

/-- Witness for `walk_record_child_keys` at the record X with child A
holding the record with scalar entry B. -/
theorem walk_record_child_keys_witness :
    (("A", PyVal.vdict (.dcons "B" (.vint 1) .dnil)) ∈
      (PyDict.dcons "A" (.vdict (.dcons "B" (.vint 1) .dnil)) .dnil).entries) ∧
    (∀ q ∈ walk (PyVal.vdict (.dcons "B" (.vint 1) .dnil)) ("X" ++ "A") "_",
      q ∈ walk (PyVal.vdict
          (PyDict.dcons "A" (.vdict (.dcons "B" (.vint 1) .dnil)) .dnil)) "X" "_" ∧
        ∃ t, q.1 = ("X" ++ "A") ++ t) := by
  have hmem : ("A", PyVal.vdict (.dcons "B" (.vint 1) .dnil)) ∈
      (PyDict.dcons "A" (.vdict (.dcons "B" (.vint 1) .dnil)) .dnil).entries :=
    List.mem_singleton.mpr rfl
  exact ⟨hmem, walk_record_child_keys _ "X" "_" "A" _ hmem⟩

end S7
